import Mathlib

/-!
Verification of the reference-configuration subsystem of lcdb-wf
(`common.py`): the path-table compiler `config_to_dict` and the
download-then-postprocess pipeline `download_and_postprocess`.

Python dicts are embedded as association lists where assignment prepends a
binding and lookup returns the most recent binding; this matches Python
dict lookup, membership and overwrite semantics exactly.  The filesystem
touched by the pipeline is embedded as the set (list) of existing paths,
and the external shell collaborators (`wget`, `mv`, `rm`) act on it in the
obvious way.  `resolve_name` (an external import) is a parameter of the
pipeline embedding.
-/

namespace LcdbWf

/-- Lookup in an association list: the value of the most recent binding. -/
def lookupD {κ : Type} [DecidableEq κ] {α : Type} : List (κ × α) → κ → Option α
  | [], _ => none
  | p :: rest, k => if k = p.1 then some p.2 else lookupD rest k

/-- Python `k in d` membership test. -/
def dmem {κ : Type} [DecidableEq κ] {α : Type} (d : List (κ × α)) (k : κ) : Bool :=
  (lookupD d k).isSome

/-- Python `d[k] = v` assignment: prepend, so the new binding shadows any
older one (lookup-equivalent to overwriting). -/
def dset {κ : Type} {α : Type} (d : List (κ × α)) (k : κ) (v : α) : List (κ × α) :=
  (k, v) :: d

/-- A cell of the path table: artifact-kind name to path. -/
abbrev Cell := List (String × String)

/-- The nested path table d[assembly][tag][kind], as built by `config_to_dict`. -/
abbrev PathTable := List (String × List (String × Cell))

/-- Chained lookup d[assembly][tag][kind]. -/
def dget3 (d : PathTable) (a t k : String) : Option String :=
  (lookupD d a).bind fun inner => (lookupD inner t).bind fun cell => lookupD cell k

/-- Chained membership d[assembly][tag][kind]. -/
def dmem3 (d : PathTable) (a t k : String) : Bool :=
  (dget3 d a t k).isSome

/-- The line of `config_to_dict` that inserts an empty inner dict at
`d[assembly]` when the assembly is not yet a key. -/
def tableAug (d : PathTable) (a : String) : PathTable :=
  if dmem d a then d else dset d a []

/-- The `e = d[assembly].get(tag, ...)` line of `config_to_dict` reading
the cell, after the augmentation above. -/
def cellAt (d : PathTable) (a t : String) : Cell :=
  (lookupD ((lookupD (tableAug d a) a).getD []) t).getD []

/-- The `args` value of a `postprocess` mapping: a bare string or a list. -/
inductive StrOrList where
  | s (x : String)
  | l (xs : List String)
deriving DecidableEq

/-- The `postprocess` value of a block: a bare function name, or a mapping
with a `function` entry and an optional `args` entry. -/
inductive PostVal where
  | str (s : String)
  | dict (function : Option String) (args : Option StrOrList)
deriving DecidableEq

/-- The value handed to `resolve_name`: normally a string, but when the
mapping lacks a `function` key, `post_process.get('function', post_process)`
hands over the whole mapping itself. -/
inductive PName where
  | str (s : String)
  | mapping (d : PostVal)
deriving DecidableEq

/-- One entry of the `references` list (`common.py` block schema).  Fields
read with `block[...]` in the source are required; fields read with
`block.get(...)` are optional. -/
structure RefBlock where
  assembly : String
  tag : Option String := none
  type_ : String
  url : Option StrOrList := none
  indexes : Option (List String) := none
  conversions : Option (List String) := none
  postprocess : Option PostVal := none
deriving DecidableEq

/-- The configuration document: `references_dir` and `references`. -/
structure Config where
  referencesDir : Option String := none
  references : List RefBlock
deriving DecidableEq

/-- The errors raised by the two functions: `ValueError` with a fixed
message, the two duplicate-key `ValueError`s (carrying the offending key),
`KeyError` on the extension tables (carrying the unknown kind), `KeyError`
on the lookup dict (carrying the missing pair), `KeyError` on a missing
required config field, failure of `resolve_name` (carrying the name it was
given), and an exception propagating out of the postprocessing function. -/
inductive Err where
  | valueError (msg : String)
  | dupKey (assembly tag : String)
  | dupType (assembly tag ty : String)
  | unknownKind (kind : String)
  | missingKey (assembly tag : String)
  | keyError (field : String)
  | resolveError (name : PName)
  | postError (msg : String)
deriving DecidableEq

/-- The fill-in tag: `i.get('tag', 'default')`. -/
def tagOf (b : RefBlock) : String := b.tag.getD "default"

/-- The `(assembly, tag)` key used by `download_and_postprocess`'s lookup. -/
def pairKey (b : RefBlock) : String × String := (b.assembly, tagOf b)

/-- The `(assembly, tag, type)` triple that `config_to_dict` keeps unique. -/
def blockKey (b : RefBlock) : String × String × String := (b.assembly, tagOf b, b.type_)

/-- `index_extensions` from `config_to_dict`; the bowtie2 and hisat2
suffixes are the first index file produced from an empty prefix, with the
concrete values fixed by the doctest of `config_to_dict`. -/
def indexExtensions : List (String × String) :=
  [("bowtie2", ".1.bt2"), ("hisat2", ".1.ht2"), ("kallisto", ".idx")]

/-- `conversion_extensions` from `config_to_dict`. -/
def conversionExtensions : List (String × String) :=
  [("intergenic", ".intergenic.gtf"), ("refflat", ".refflat")]

/-- The conversions loop of `config_to_dict`: for each conversion kind look
up its suffix (a `KeyError` naming the kind if absent) and assign
`e[conversion]` the path built from `{references_dir}/{assembly}/{type_}/{assembly}_{tag}{ext}`. -/
def addConversions (rdir assembly tag ty : String) : Cell → List String → Except Err Cell
  | e, [] => .ok e
  | e, c :: rest =>
    match lookupD conversionExtensions c with
    | none => .error (.unknownKind c)
    | some ext =>
      addConversions rdir assembly tag ty
        (dset e c (rdir ++ "/" ++ assembly ++ "/" ++ ty ++ "/" ++ assembly ++ "_" ++ tag ++ ext))
        rest

/-- The indexes loop of `config_to_dict`: for each index kind look up its
suffix (a `KeyError` naming the kind if absent) and assign `e[index]` the
path built from `{references_dir}/{assembly}/{index}/{assembly}_{tag}{ext}`. -/
def addIndexes (rdir assembly tag : String) : Cell → List String → Except Err Cell
  | e, [] => .ok e
  | e, ix :: rest =>
    match lookupD indexExtensions ix with
    | none => .error (.unknownKind ix)
    | some ext =>
      addIndexes rdir assembly tag
        (dset e ix (rdir ++ "/" ++ assembly ++ "/" ++ ix ++ "/" ++ assembly ++ "_" ++ tag ++ ext))
        rest

/-- One iteration of the `for block in config['references']` loop of
`config_to_dict`: fill in the tag, ensure `d[assembly]` exists, fetch the
cell `e = d[assembly].get(tag, {})`, raise if the type is already a key of
the cell, add the canonical path, add conversions on a gtf block, add
indexes and the synthetic chromsizes entry on a fasta block, and store the
cell back at `d[assembly][tag]`. -/
def processBlock (rdir : String) (d : PathTable) (b : RefBlock) : Except Err PathTable :=
  let assembly := b.assembly
  let tag := tagOf b
  let ty := b.type_
  let d1 := tableAug d assembly
  let e := cellAt d assembly tag
  if dmem e ty then
    .error (.dupType assembly tag ty)
  else
    let e1 := dset e ty
      (rdir ++ "/" ++ assembly ++ "/" ++ ty ++ "/" ++ assembly ++ "_" ++ tag ++ "." ++ ty)
    match (if ty = "gtf" then addConversions rdir assembly tag ty e1 (b.conversions.getD []) else .ok e1) with
    | .error err => .error err
    | .ok e2 =>
      match (if ty = "fasta" then
               (addIndexes rdir assembly tag e2 (b.indexes.getD [])).map fun e3 =>
                 dset e3 "chromsizes"
                   (rdir ++ "/" ++ assembly ++ "/" ++ ty ++ "/" ++ assembly ++ "_" ++ tag ++ ".chromsizes")
             else .ok e2) with
      | .error err => .error err
      | .ok e4 => .ok (dset d1 assembly (dset ((lookupD d1 assembly).getD []) tag e4))

/-- The whole `for block in config['references']` loop of `config_to_dict`. -/
def resolveRefs (rdir : String) (d : PathTable) : List RefBlock → Except Err PathTable
  | [] => .ok d
  | b :: rest =>
    match processBlock rdir d b with
    | .error e => .error e
    | .ok d2 => resolveRefs rdir d2 rest

/-- `os.environ.get('REFERENCES_DIR', config.get('references_dir', None))`:
the environment override wins when present. -/
def effectiveRefDir (env : Option String) (cfg : Config) : Option String :=
  match env with
  | some r => some r
  | none => cfg.referencesDir

/-- `config_to_dict` of `common.py` (the YAML-file loading shortcut at its
top is outside the embedding; the configuration object is passed directly,
and the `REFERENCES_DIR` environment value is the explicit `env` argument). -/
def configToDict (env : Option String) (cfg : Config) : Except Err PathTable :=
  match effectiveRefDir env cfg with
  | none => .error (.valueError "References dir not set")
  | some rdir => resolveRefs rdir [] cfg.references

/-- The lookup-building loop of `download_and_postprocess` (its first
statement): key each block by `(assembly, tag)` and raise on a duplicate. -/
def buildLookupAux (d : List ((String × String) × RefBlock)) :
    List RefBlock → Except Err (List ((String × String) × RefBlock))
  | [] => .ok d
  | b :: rest =>
    let k := pairKey b
    if dmem d k then .error (.dupKey k.1 k.2)
    else buildLookupAux (dset d k b) rest

/-- The lookup dict `d` built by `download_and_postprocess`. -/
def buildLookup (refs : List RefBlock) : Except Err (List ((String × String) × RefBlock)) :=
  buildLookupAux [] refs

/-- Normalization of the `args` value: absent becomes the empty sequence, a
bare string becomes a one-element sequence. -/
def normArgs : Option StrOrList → List String
  | none => []
  | some (.s x) => [x]
  | some (.l xs) => xs

/-- The selected postprocessing behavior after normalization. -/
inductive PostSel where
  | useDefault
  | named (name : PName) (args : List String)
deriving DecidableEq

/-- The postprocess-normalization step of `download_and_postprocess`
(its lines handling absent, string and mapping values).  For a mapping,
`post_process.get('function', post_process)` yields the `function` entry
when present and otherwise the whole mapping itself. -/
def normPostprocess : Option PostVal → PostSel
  | none => .useDefault
  | some (.str s) => .named (.str s) []
  | some (.dict f a) =>
    .named (match f with | some s => .str s | none => .mapping (.dict f a)) (normArgs a)

/-- The filesystem, as the list of existing paths. -/
abbrev FS := List String

/-- `os.path.exists`. -/
def hasFile (fs : FS) (f : String) : Bool :=
  match fs with
  | [] => false
  | x :: rest => if x = f then true else hasFile rest f

/-- Create a file (idempotent). -/
def addFile (fs : FS) (f : String) : FS :=
  if hasFile fs f then fs else f :: fs

/-- Remove a file. -/
def removeFile (fs : FS) (f : String) : FS :=
  match fs with
  | [] => []
  | x :: rest => if x = f then removeFile rest f else x :: removeFile rest f

/-- A postprocessing function: temporary files, output file, extra
arguments, and the filesystem; it may raise. -/
abbrev PostFunc := List String → String → List String → FS → Except String FS

/-- The `resolve_name` collaborator: a name either resolves to a function
or fails to import. -/
abbrev Resolver := PName → Option PostFunc

/-- `default_postprocess` of `download_and_postprocess`: `mv {origfn} {newfn}`
where `origfn` is the list of temporary files.  With a single temporary the
move succeeds; with zero or several the shell `mv` fails (the target is an
output file, not a directory). -/
def defaultPostprocess (tmpfiles : List String) (outfile : String) (fs : FS) :
    Except String FS :=
  match tmpfiles with
  | [t] => .ok (addFile (removeFile fs t) outfile)
  | _ => .error "mv: target is not a directory"

/-- The cleanup loop at the end of `download_and_postprocess`: remove each
temporary file that still exists. -/
def cleanupTmp (fs : FS) (tmpfiles : List String) : FS :=
  tmpfiles.foldl (fun s t => if hasFile s t then removeFile s t else s) fs

/-- The temporary-file names: one per URL, `{outfile}.{i}.tmp`. -/
def tmpNames (outfile : String) (n : Nat) : List String :=
  (List.range n).map fun i => outfile ++ "." ++ toString i ++ ".tmp"

/-- Normalization of the `url` value: a bare string becomes a one-element
list. -/
def urlList : StrOrList → List String
  | .s x => [x]
  | .l xs => xs

/-- The tail of `download_and_postprocess` once the function and URLs are
in hand: name the temporaries, fetch each URL into its temporary (stderr
into `{outfile}.log`), call the function, and — only after a normal
return — remove the temporaries that still exist.  A raised exception
propagates immediately, before the cleanup loop. -/
def runPipeline (func : PostFunc) (args : List String) (urls : List String)
    (outfile : String) (fs : FS) : FS × Option Err :=
  let tmpfiles := tmpNames outfile urls.length
  let fs1 := (urls.zip tmpfiles).foldl
    (fun s p => addFile (addFile s (outfile ++ ".log")) p.2) fs
  match func tmpfiles outfile args fs1 with
  | .error msg => (fs1, some (.postError msg))
  | .ok fs2 => (cleanupTmp fs2 tmpfiles, none)

/-- `download_and_postprocess` of `common.py`.  Returns the final
filesystem and the exception, if one propagates (`none` on success).  The
steps in source order: build the lookup dict; read
`config['references_dir']` (used by the unused `relpath` computation, but
still a `KeyError` when absent); select the block; normalize `postprocess`
and resolve the function (the default when absent); normalize `url`; name
one temporary per URL; fetch each URL into its temporary with stderr into
`{outfile}.log`; call the function; then remove surviving temporaries.
The cleanup loop runs only after a normal return of the function: a raised
exception propagates immediately, skipping it. -/
def downloadAndPostprocess (resolver : Resolver) (cfg : Config)
    (outfile assembly tag : String) (fs : FS) : FS × Option Err :=
  match buildLookup cfg.references with
  | .error e => (fs, some e)
  | .ok d =>
    match cfg.referencesDir with
    | none => (fs, some (.keyError "references_dir"))
    | some _ =>
      match lookupD d (assembly, tag) with
      | none => (fs, some (.missingKey assembly tag))
      | some block =>
        let funcE : Except Err (PostFunc × List String) :=
          match normPostprocess block.postprocess with
          | .useDefault => .ok ((fun tf o _ s => defaultPostprocess tf o s), [])
          | .named name args =>
            match resolver name with
            | none => .error (.resolveError name)
            | some f => .ok (f, args)
        match funcE with
        | .error e => (fs, some e)
        | .ok fa =>
          match block.url with
          | none => (fs, some (.keyError "url"))
          | some u => runPipeline fa.1 fa.2 (urlList u) outfile fs

/-- The temporary-file names a given `download_and_postprocess` call
allocates, recomputed from the configuration the way the call does. -/
def callTmpfiles (cfg : Config) (outfile assembly tag : String) : List String :=
  match buildLookup cfg.references with
  | .error _ => []
  | .ok d =>
    match lookupD d (assembly, tag) with
    | none => []
    | some block =>
      match block.url with
      | none => []
      | some u => tmpNames outfile (urlList u).length

/-- Lookup of a cell entry through the result of `configToDict`. -/
def tableLookup (r : Except Err PathTable) (a t k : String) : Option String :=
  match r with
  | .error _ => none
  | .ok tbl => dget3 tbl a t k

/-- The table inside a successful `configToDict` result. -/
def resultTable (r : Except Err PathTable) : PathTable :=
  match r with
  | .error _ => []
  | .ok tbl => tbl

/-- A block's requested kinds are all known to the extension tables: the
only way its conversions and indexes loops can avoid a `KeyError`. -/
def knownKinds (b : RefBlock) : Prop :=
  (b.type_ = "gtf" → ∀ c ∈ b.conversions.getD [], (lookupD conversionExtensions c).isSome = true) ∧
  (b.type_ = "fasta" → ∀ i ∈ b.indexes.getD [], (lookupD indexExtensions i).isSome = true)

instance (b : RefBlock) : Decidable (knownKinds b) := by
  unfold knownKinds
  infer_instance

/-! Concrete blocks, configurations and collaborators used to instantiate
the theorems below. -/

/-- The block of the doctest-style example configuration of claim C6. -/
def c6block : RefBlock :=
  { assembly := "dm6", tag := some "r6-11", type_ := "fasta", indexes := some ["bowtie2"] }

/-- The example configuration of claim C6. -/
def c6cfg : Config :=
  { referencesDir := some "/data", references := [c6block] }

/-- A fasta block for `(dm6, default)`. -/
def blockFasta : RefBlock :=
  { assembly := "dm6", type_ := "fasta", url := some (.s "http://example.com/x.fa.gz") }

/-- A gtf block for the same `(dm6, default)` pair, differing only in type. -/
def blockGtf : RefBlock :=
  { assembly := "dm6", type_ := "gtf", url := some (.s "http://example.com/x.gtf.gz") }

/-- A configuration with two blocks sharing `(assembly, tag)` but with
different types. -/
def cfg2 : Config :=
  { referencesDir := some "/data", references := [blockFasta, blockGtf] }

/-- A second fasta block for `(dm6, default)`: a duplicate triple with
`blockFasta`. -/
def blockFastaDup : RefBlock :=
  { assembly := "dm6", type_ := "fasta", url := some (.s "http://example.com/y.fa.gz") }

/-- A configuration with a duplicated `(assembly, tag, type)` triple. -/
def cfg3 : Config :=
  { referencesDir := some "/data", references := [blockFasta, blockFastaDup] }

/-- A gtf block requesting a conversion kind absent from the extension
table. -/
def badBlock : RefBlock :=
  { assembly := "dm6", type_ := "gtf", conversions := some ["bogus"] }

/-- A fasta block carrying a `conversions` field (which `config_to_dict`
never reads on a non-gtf block). -/
def b10 : RefBlock :=
  { assembly := "dm6", type_ := "fasta" }

/-- A postprocessing function that raises. -/
def raisingFunc : PostFunc := fun _ _ _ _ => .error "postprocess failed"

/-- A resolver for which every name resolves, to the raising function. -/
def raisingResolver : Resolver := fun _ => some raisingFunc

/-- A resolver on which only string names resolve, modelling that
`resolve_name` fails when handed a mapping instead of a string. -/
def strOnlyResolver : Resolver := fun n =>
  match n with
  | .str _ => some raisingFunc
  | .mapping _ => none

/-- A configuration whose single block names an explicit postprocess
function. -/
def cfg1 : Config :=
  { referencesDir := some "/data",
    references :=
      [{ assembly := "dm6", type_ := "fasta",
         url := some (.s "http://example.com/x.fa.gz"),
         postprocess := some (.str "mymodule.myfunc") }] }

/-- A configuration whose single block has no postprocess key, so the
default move function runs. -/
def cfgW : Config :=
  { referencesDir := some "/data",
    references :=
      [{ assembly := "dm6", type_ := "fasta",
         url := some (.s "http://example.com/x.fa.gz") }] }

/-- A configuration whose single block has a postprocess mapping that lacks
a `function` entry. -/
def cfg9 : Config :=
  { referencesDir := some "/data",
    references :=
      [{ assembly := "dm6", type_ := "fasta",
         url := some (.s "http://example.com/x.fa.gz"),
         postprocess := some (.dict none none) }] }

/-! ## Theorems -/

/-- Claim C5 (confirmed): the references directory comes from the
`REFERENCES_DIR` override when that is set — the configuration value is
then ignored — equals the configuration value when only that is set, and
when neither is set `config_to_dict` raises the `ValueError` whose message
is "References dir not set". -/
theorem claim_C5 :
    (∀ (r : String) (cfg : Config) (x : Option String),
      configToDict (some r) { cfg with referencesDir := x } = configToDict (some r) cfg) ∧
    (∀ (r : String) (cfg : Config),
      configToDict none { cfg with referencesDir := some r } =
        configToDict (some r) cfg) ∧
    (∀ cfg : Config, cfg.referencesDir = none →
      configToDict none cfg = .error (.valueError "References dir not set")) := by
  refine ⟨fun r cfg x => rfl, fun r cfg => rfl, fun cfg h => ?_⟩
  simp [configToDict, effectiveRefDir, h]

/-- Witness for claim C5 at a concrete configuration with no references
directory anywhere. -/
theorem claim_C5_witness :
    configToDict none { referencesDir := none, references := [] } =
      .error (.valueError "References dir not set") :=
  claim_C5.2.2 { referencesDir := none, references := [] } rfl

/-- Claim C6 (confirmed): on the example configuration the resulting table
maps `dm6 → r6-11 → fasta` to `/data/dm6/fasta/dm6_r6-11.fasta`,
`dm6 → r6-11 → chromsizes` to `/data/dm6/fasta/dm6_r6-11.chromsizes`, and
`dm6 → r6-11 → bowtie2` to `/data/dm6/bowtie2/dm6_r6-11` followed by the
bowtie2 index suffix `.1.bt2`. -/
theorem claim_C6 :
    tableLookup (configToDict none c6cfg) "dm6" "r6-11" "fasta" =
      some "/data/dm6/fasta/dm6_r6-11.fasta" ∧
    tableLookup (configToDict none c6cfg) "dm6" "r6-11" "chromsizes" =
      some "/data/dm6/fasta/dm6_r6-11.chromsizes" ∧
    tableLookup (configToDict none c6cfg) "dm6" "r6-11" "bowtie2" =
      some ("/data/dm6/bowtie2/dm6_r6-11" ++ ".1.bt2") := by
  refine ⟨?_, ?_, ?_⟩ <;> rfl

/-- Claim C8 (confirmed): the postprocess specification is normalized as
described — absent selects the default with no extra arguments; a string
selects the function of that name with no extra arguments; a mapping
selects the function named by its `function` entry, with absent `args`
becoming the empty sequence, a bare string becoming a one-element
sequence, and a list kept as is. -/
theorem claim_C8 :
    normPostprocess none = .useDefault ∧
    (∀ s, normPostprocess (some (.str s)) = .named (.str s) []) ∧
    (∀ f, normPostprocess (some (.dict (some f) none)) = .named (.str f) []) ∧
    (∀ f x, normPostprocess (some (.dict (some f) (some (.s x)))) = .named (.str f) [x]) ∧
    (∀ f xs, normPostprocess (some (.dict (some f) (some (.l xs)))) = .named (.str f) xs) :=
  ⟨rfl, fun _ => rfl, fun _ => rfl, fun _ _ => rfl, fun _ _ => rfl⟩

/-- Claim C9 (confirmed): a postprocess mapping lacking a `function` key
raises no configuration error naming the missing key; normalization hands
the entire mapping itself to the function-resolution step, and the failure
surfaces there as a resolution error on that mapping value, as
`download_and_postprocess` shows on a concrete configuration with a
resolver that rejects non-string names. -/
theorem claim_C9 :
    (∀ a, normPostprocess (some (.dict none a)) =
      .named (.mapping (.dict none a)) (normArgs a)) ∧
    (downloadAndPostprocess strOnlyResolver cfg9 "out" "dm6" "default" []).2 =
      some (.resolveError (.mapping (.dict none none))) :=
  ⟨fun _ => rfl, by decide⟩

/-- Claim C10 (confirmed): a `conversions` field on a block whose type is
not gtf, and an `indexes` field on a block whose type is not fasta, are
silently ignored — replacing them by anything, including unknown kinds,
leaves the block's processing step unchanged. -/
theorem claim_C10 :
    ∀ (rdir : String) (d : PathTable) (b : RefBlock),
      (b.type_ ≠ "gtf" →
        ∀ cs, processBlock rdir d { b with conversions := cs } = processBlock rdir d b) ∧
      (b.type_ ≠ "fasta" →
        ∀ ix, processBlock rdir d { b with indexes := ix } = processBlock rdir d b) := by
  intro rdir d b
  refine ⟨fun h cs => ?_, fun h ix => ?_⟩
  all_goals cases b; simp only [processBlock, tagOf]; simp [h]

/-- Witness for claim C10: a fasta block's bogus `conversions` field is
ignored. -/
theorem claim_C10_witness :
    processBlock "/data" [] { b10 with conversions := some ["bogus"] } =
      processBlock "/data" [] b10 :=
  (claim_C10 "/data" [] b10).1 (by decide) (some ["bogus"])

/-- Assigning a key makes its value the assigned one. -/
theorem lookupD_dset_self {κ α : Type} [DecidableEq κ] (d : List (κ × α)) (k : κ) (v : α) :
    lookupD (dset d k v) k = some v := by
  simp [dset, lookupD]

/-- Assigning one key leaves lookup of another unchanged. -/
theorem lookupD_dset_ne {κ α : Type} [DecidableEq κ] (d : List (κ × α)) (k : κ) (v : α)
    (k2 : κ) (h : k2 ≠ k) : lookupD (dset d k v) k2 = lookupD d k2 := by
  simp [dset, lookupD, h]

/-- An assigned key is present. -/
theorem dmem_dset_self {κ α : Type} [DecidableEq κ] (d : List (κ × α)) (k : κ) (v : α) :
    dmem (dset d k v) k = true := by
  simp [dmem, lookupD_dset_self]

/-- Assignment never removes a present key. -/
theorem dmem_dset_mono {κ α : Type} [DecidableEq κ] (d : List (κ × α)) (k : κ) (v : α)
    (k2 : κ) (h : dmem d k2 = true) : dmem (dset d k v) k2 = true := by
  by_cases hk : k2 = k
  · subst hk; exact dmem_dset_self d k2 v
  · simpa [dmem, lookupD_dset_ne d k v k2 hk] using h

/-- The lookup-building loop of `download_and_postprocess` raises only the
duplicate-`(assembly, tag)` error. -/
theorem buildLookupAux_error_shape (bs : List RefBlock)
    (d : List ((String × String) × RefBlock)) (e : Err)
    (h : buildLookupAux d bs = .error e) : ∃ a t, e = .dupKey a t := by
  induction bs generalizing d with
  | nil => simp [buildLookupAux] at h
  | cons b rest ih =>
    by_cases hd : dmem d (pairKey b) = true
    · refine ⟨(pairKey b).1, (pairKey b).2, ?_⟩
      simp [buildLookupAux, hd] at h
      exact h.symm
    · simp only [Bool.not_eq_true] at hd
      simp only [buildLookupAux, hd, Bool.false_eq_true, if_false] at h
      exact ih _ h

/-- Once a block's pair key is already in the accumulator, the
lookup-building loop raises. -/
theorem buildLookupAux_mem_error (bs : List RefBlock)
    (d : List ((String × String) × RefBlock)) (b : RefBlock)
    (hb : b ∈ bs) (hd : dmem d (pairKey b) = true) :
    ∃ e, buildLookupAux d bs = .error e := by
  induction bs generalizing d with
  | nil => cases hb
  | cons x rest ih =>
    by_cases hx : dmem d (pairKey x) = true
    · exact ⟨.dupKey (pairKey x).1 (pairKey x).2, by simp [buildLookupAux, hx]⟩
    · rcases List.mem_cons.mp hb with h1 | h2
      · subst h1; exact absurd hd hx
      · simp only [Bool.not_eq_true] at hx
        simp only [buildLookupAux, hx, Bool.false_eq_true, if_false]
        exact ih _ h2 (dmem_dset_mono _ _ _ _ hd)

/-- A references list containing two blocks with the same `(assembly, tag)`
pair makes the lookup-building loop raise, from any accumulator state. -/
theorem buildLookupAux_dup_error (pre : List RefBlock)
    (d : List ((String × String) × RefBlock)) (b1 : RefBlock)
    (mid : List RefBlock) (b2 : RefBlock) (post : List RefBlock)
    (hkey : pairKey b1 = pairKey b2) :
    ∃ e, buildLookupAux d (pre ++ b1 :: mid ++ b2 :: post) = .error e := by
  induction pre generalizing d with
  | nil =>
    by_cases h1 : dmem d (pairKey b1) = true
    · exact ⟨.dupKey (pairKey b1).1 (pairKey b1).2, by simp [buildLookupAux, h1]⟩
    · simp only [Bool.not_eq_true] at h1
      simp only [List.nil_append, buildLookupAux, h1, Bool.false_eq_true, if_false]
      refine buildLookupAux_mem_error _ _ b2 ?_ ?_
      · exact List.mem_append_right mid (List.mem_cons_self b2 post)
      · rw [← hkey]
        exact dmem_dset_self d (pairKey b1) b1
  | cons p pre2 ih =>
    by_cases hp : dmem d (pairKey p) = true
    · exact ⟨.dupKey (pairKey p).1 (pairKey p).2, by simp [buildLookupAux, hp]⟩
    · simp only [Bool.not_eq_true] at hp
      simp only [List.cons_append, buildLookupAux, hp, Bool.false_eq_true, if_false]
      exact ih _

/-- Claim C2 (confirmed): two distinct blocks sharing `(assembly, tag)` —
tag filled in with "default" — but differing in type make the
lookup-building step of `download_and_postprocess` raise its duplicate-key
error, while `config_to_dict`, whose uniqueness key additionally includes
the type, accepts such a configuration, as the concrete two-block
configuration `cfg2` shows. -/
theorem claim_C2 :
    (∀ (refs pre mid post : List RefBlock) (b1 b2 : RefBlock),
      refs = pre ++ b1 :: mid ++ b2 :: post →
      pairKey b1 = pairKey b2 →
      b1.type_ ≠ b2.type_ →
      ∃ a t, buildLookup refs = .error (.dupKey a t)) ∧
    (∃ a t, buildLookup cfg2.references = .error (.dupKey a t)) ∧
    (∃ tbl, configToDict none cfg2 = .ok tbl) := by
  refine ⟨?_, ⟨"dm6", "default", rfl⟩, ⟨_, rfl⟩⟩
  intro refs pre mid post b1 b2 hsplit hkey _
  subst hsplit
  obtain ⟨e, he⟩ := buildLookupAux_dup_error pre [] b1 mid b2 post hkey
  obtain ⟨a, t, rfl⟩ := buildLookupAux_error_shape _ _ _ he
  exact ⟨a, t, he⟩

/-- Witness for claim C2 applied to the concrete configuration `cfg2`. -/
theorem claim_C2_witness :
    ∃ a t, buildLookup [blockFasta, blockGtf] = .error (.dupKey a t) :=
  claim_C2.1 [blockFasta, blockGtf] [] [] [] blockFasta blockGtf rfl rfl (by decide)

/-- A successful conversions loop saw only known conversion kinds. -/
theorem addConversions_ok_known (rdir a t ty : String) (cs : List String) (e e2 : Cell)
    (h : addConversions rdir a t ty e cs = .ok e2) :
    ∀ c ∈ cs, (lookupD conversionExtensions c).isSome = true := by
  induction cs generalizing e with
  | nil => intro c hc; cases hc
  | cons c rest ih =>
    intro x hx
    cases hl : lookupD conversionExtensions c with
    | none => rw [addConversions, hl] at h; cases h
    | some ext =>
      rw [addConversions, hl] at h
      rcases List.mem_cons.mp hx with h1 | h2
      · subst h1; simp [hl]
      · exact ih _ h x h2

/-- A successful indexes loop saw only known index kinds. -/
theorem addIndexes_ok_known (rdir a t : String) (cs : List String) (e e2 : Cell)
    (h : addIndexes rdir a t e cs = .ok e2) :
    ∀ c ∈ cs, (lookupD indexExtensions c).isSome = true := by
  induction cs generalizing e with
  | nil => intro c hc; cases hc
  | cons c rest ih =>
    intro x hx
    cases hl : lookupD indexExtensions c with
    | none => rw [addIndexes, hl] at h; cases h
    | some ext =>
      rw [addIndexes, hl] at h
      rcases List.mem_cons.mp hx with h1 | h2
      · subst h1; simp [hl]
      · exact ih _ h x h2

/-- A conversions loop over only known kinds succeeds, from any cell. -/
theorem addConversions_known_ok (rdir a t ty : String) (cs : List String)
    (h : ∀ c ∈ cs, (lookupD conversionExtensions c).isSome = true) :
    ∀ e, ∃ e2, addConversions rdir a t ty e cs = .ok e2 := by
  induction cs with
  | nil => intro e; exact ⟨e, rfl⟩
  | cons c rest ih =>
    intro e
    cases hl : lookupD conversionExtensions c with
    | none => have := h c (List.mem_cons_self c rest); rw [hl] at this; cases this
    | some ext =>
      obtain ⟨e2, he2⟩ := ih (fun x hx => h x (List.mem_cons_of_mem c hx)) _
      exact ⟨e2, by rw [addConversions, hl]; exact he2⟩

/-- An indexes loop over only known kinds succeeds, from any cell. -/
theorem addIndexes_known_ok (rdir a t : String) (cs : List String)
    (h : ∀ c ∈ cs, (lookupD indexExtensions c).isSome = true) :
    ∀ e, ∃ e2, addIndexes rdir a t e cs = .ok e2 := by
  induction cs with
  | nil => intro e; exact ⟨e, rfl⟩
  | cons c rest ih =>
    intro e
    cases hl : lookupD indexExtensions c with
    | none => have := h c (List.mem_cons_self c rest); rw [hl] at this; cases this
    | some ext =>
      obtain ⟨e2, he2⟩ := ih (fun x hx => h x (List.mem_cons_of_mem c hx)) _
      exact ⟨e2, by rw [addIndexes, hl]; exact he2⟩

/-- A conversions loop hitting an unknown kind raises the `KeyError`
naming the first unknown kind, from any cell. -/
theorem addConversions_unknown (rdir a t ty : String) (cs : List String)
    (h : ∃ c ∈ cs, lookupD conversionExtensions c = none) :
    ∃ k, lookupD conversionExtensions k = none ∧
      ∀ e, addConversions rdir a t ty e cs = .error (.unknownKind k) := by
  induction cs with
  | nil => obtain ⟨c, hc, _⟩ := h; cases hc
  | cons c rest ih =>
    cases hl : lookupD conversionExtensions c with
    | none => exact ⟨c, hl, fun e => by rw [addConversions, hl]⟩
    | some ext =>
      have h2 : ∃ x ∈ rest, lookupD conversionExtensions x = none := by
        obtain ⟨x, hx, hxn⟩ := h
        rcases List.mem_cons.mp hx with h1 | h1
        · subst h1; rw [hl] at hxn; cases hxn
        · exact ⟨x, h1, hxn⟩
      obtain ⟨k, hk, hall⟩ := ih h2
      exact ⟨k, hk, fun e => by rw [addConversions, hl]; exact hall _⟩

/-- An indexes loop hitting an unknown kind raises the `KeyError` naming
the first unknown kind, from any cell. -/
theorem addIndexes_unknown (rdir a t : String) (cs : List String)
    (h : ∃ c ∈ cs, lookupD indexExtensions c = none) :
    ∃ k, lookupD indexExtensions k = none ∧
      ∀ e, addIndexes rdir a t e cs = .error (.unknownKind k) := by
  induction cs with
  | nil => obtain ⟨c, hc, _⟩ := h; cases hc
  | cons c rest ih =>
    cases hl : lookupD indexExtensions c with
    | none => exact ⟨c, hl, fun e => by rw [addIndexes, hl]⟩
    | some ext =>
      have h2 : ∃ x ∈ rest, lookupD indexExtensions x = none := by
        obtain ⟨x, hx, hxn⟩ := h
        rcases List.mem_cons.mp hx with h1 | h1
        · subst h1; rw [hl] at hxn; cases hxn
        · exact ⟨x, h1, hxn⟩
      obtain ⟨k, hk, hall⟩ := ih h2
      exact ⟨k, hk, fun e => by rw [addIndexes, hl]; exact hall _⟩

/-- The cell `e = d[assembly].get(tag, {})` read by the loop body has no
binding for a kind that `dget3` does not see. -/
theorem cell_dmem_of_dget3_none (d : PathTable) (a t k : String)
    (h : dget3 d a t k = none) :
    dmem (cellAt d a t) k = false := by
  unfold cellAt tableAug
  by_cases hda : dmem d a = true
  · rw [if_pos hda]
    cases hl : lookupD d a with
    | none => simp [dmem, hl] at hda
    | some inner =>
      simp only [hl, Option.getD_some]
      cases hlt : lookupD inner t with
      | none => simp [dmem, lookupD]
      | some cell =>
        simp only [hlt, Option.getD_some]
        simp [dget3, hl, hlt] at h
        simp [dmem, h]
  · simp only [Bool.not_eq_true] at hda
    rw [if_neg (by simp [hda])]
    simp [lookupD_dset_self, dmem, lookupD]

/-- A block that `config_to_dict`'s loop processes without error requested
only known kinds. -/
theorem processBlock_ok_known (rdir : String) (d : PathTable) (b : RefBlock)
    (d2 : PathTable) (h : processBlock rdir d b = .ok d2) : knownKinds b := by
  simp only [processBlock] at h
  by_cases hdup : dmem (cellAt d b.assembly (tagOf b)) b.type_ = true
  · rw [if_pos hdup] at h; cases h
  · simp only [Bool.not_eq_true] at hdup
    rw [if_neg (by simp [hdup])] at h
    constructor
    · intro hty
      simp only [hty] at h
      simp only [reduceIte] at h
      cases hc : addConversions rdir b.assembly (tagOf b) "gtf"
          (dset (cellAt d b.assembly (tagOf b)) "gtf"
            (rdir ++ "/" ++ b.assembly ++ "/" ++ "gtf" ++ "/" ++ b.assembly ++ "_" ++
              tagOf b ++ "." ++ "gtf"))
          (b.conversions.getD []) with
      | error err => rw [hc] at h; cases h
      | ok e2 => exact addConversions_ok_known _ _ _ _ _ _ _ hc
    · intro hty
      simp only [hty] at h
      simp only [String.reduceEq, reduceIte] at h
      cases hc : addIndexes rdir b.assembly (tagOf b)
          (dset (cellAt d b.assembly (tagOf b)) "fasta"
            (rdir ++ "/" ++ b.assembly ++ "/" ++ "fasta" ++ "/" ++ b.assembly ++ "_" ++
              tagOf b ++ "." ++ "fasta"))
          (b.indexes.getD []) with
      | error err => rw [hc] at h; simp only [Except.map] at h; cases h
      | ok e2 => exact addIndexes_ok_known _ _ _ _ _ _ hc

/-- Every block of a successfully compiled references list requested only
known kinds. -/
theorem resolveRefs_ok_known (bs : List RefBlock) (rdir : String) (d tbl : PathTable)
    (h : resolveRefs rdir d bs = .ok tbl) : ∀ b ∈ bs, knownKinds b := by
  induction bs generalizing d with
  | nil => intro b hb; cases hb
  | cons x rest ih =>
    intro b hb
    cases hp : processBlock rdir d x with
    | error e => rw [resolveRefs, hp] at h; cases h
    | ok d2 =>
      rw [resolveRefs, hp] at h
      rcases List.mem_cons.mp hb with h1 | h2
      · subst h1; exact processBlock_ok_known _ _ _ _ hp
      · exact ih _ h b h2

/-- A block whose triple is not yet in the table and that requests an
unknown kind makes the loop body raise the `KeyError` naming an unknown
kind. -/
theorem processBlock_unknown (rdir : String) (d : PathTable) (b : RefBlock)
    (htriple : dget3 d b.assembly (tagOf b) b.type_ = none)
    (hbad : (b.type_ = "gtf" ∧
        ∃ c ∈ b.conversions.getD [], lookupD conversionExtensions c = none) ∨
      (b.type_ = "fasta" ∧
        ∃ i ∈ b.indexes.getD [], lookupD indexExtensions i = none)) :
    ∃ k, (lookupD conversionExtensions k = none ∨ lookupD indexExtensions k = none) ∧
      processBlock rdir d b = .error (.unknownKind k) := by
  have hmem := cell_dmem_of_dget3_none d b.assembly (tagOf b) b.type_ htriple
  rcases hbad with ⟨hty, hex⟩ | ⟨hty, hex⟩
  · obtain ⟨k, hk, hall⟩ :=
      addConversions_unknown rdir b.assembly (tagOf b) "gtf" (b.conversions.getD []) hex
    refine ⟨k, Or.inl hk, ?_⟩
    rw [hty] at hmem
    simp only [processBlock, hty]
    simp [hmem, hall]
  · obtain ⟨k, hk, hall⟩ :=
      addIndexes_unknown rdir b.assembly (tagOf b) (b.indexes.getD []) hex
    refine ⟨k, Or.inr hk, ?_⟩
    rw [hty] at hmem
    simp only [processBlock, hty]
    simp [hmem, hall, Except.map]

/-- Claim C4 (confirmed): an index kind on a fasta block or a conversion
kind on a gtf block that is not a key of the corresponding known-extension
table is never silently skipped — a successful `config_to_dict` implies
every such kind was known, and processing the offending block (its triple
not yet present) raises the `KeyError` carrying an unknown kind. -/
theorem claim_C4 :
    (∀ (env : Option String) (cfg : Config) (tbl : PathTable),
      configToDict env cfg = .ok tbl → ∀ b ∈ cfg.references, knownKinds b) ∧
    (∀ (rdir : String) (d : PathTable) (b : RefBlock),
      dget3 d b.assembly (tagOf b) b.type_ = none →
      ((b.type_ = "gtf" ∧
          ∃ c ∈ b.conversions.getD [], lookupD conversionExtensions c = none) ∨
        (b.type_ = "fasta" ∧
          ∃ i ∈ b.indexes.getD [], lookupD indexExtensions i = none)) →
      ∃ k, (lookupD conversionExtensions k = none ∨ lookupD indexExtensions k = none) ∧
        processBlock rdir d b = .error (.unknownKind k)) := by
  constructor
  · intro env cfg tbl h b hb
    unfold configToDict at h
    cases he : effectiveRefDir env cfg with
    | none => simp only [he] at h; cases h
    | some rdir =>
      simp only [he] at h
      exact resolveRefs_ok_known _ _ _ _ h b hb
  · exact processBlock_unknown

/-- Witness for claim C4: the successful example configuration has only
known kinds, and a gtf block requesting the unknown conversion kind
`bogus` raises the `KeyError` naming it. -/
theorem claim_C4_witness :
    knownKinds c6block ∧
    (∃ k, (lookupD conversionExtensions k = none ∨ lookupD indexExtensions k = none) ∧
      processBlock "/data" [] badBlock = .error (.unknownKind k)) :=
  ⟨claim_C4.1 none c6cfg (resultTable (configToDict none c6cfg)) rfl c6block (by decide),
   claim_C4.2 "/data" [] badBlock rfl (Or.inl ⟨rfl, "bogus", by decide, rfl⟩)⟩

/-- After the augmentation line, the assembly always has an inner dict. -/
theorem lookupD_tableAug_self (d : PathTable) (a : String) :
    lookupD (tableAug d a) a = some ((lookupD d a).getD []) := by
  unfold tableAug
  cases hl : lookupD d a with
  | none =>
    rw [if_neg (by simp [dmem, hl])]
    simp [lookupD_dset_self, hl]
  | some x =>
    rw [if_pos (by simp [dmem, hl])]
    simp [hl]

/-- The augmentation line never changes a chained lookup. -/
theorem dget3_tableAug (d : PathTable) (A a t k : String) :
    dget3 (tableAug d A) a t k = dget3 d a t k := by
  unfold tableAug
  by_cases hda : dmem d A = true
  · rw [if_pos hda]
  · rw [if_neg (by simp [hda])]
    unfold dget3
    by_cases ha : a = A
    · subst ha
      rw [lookupD_dset_self]
      have hnone : lookupD d a = none := by
        cases hl : lookupD d a with
        | none => rfl
        | some x => exact absurd (by simp [dmem, hl]) hda
      rw [hnone]
      simp [lookupD]
    · rw [lookupD_dset_ne _ _ _ _ ha]

/-- A chained lookup through the write-back of one cell. -/
theorem dget3_dset_outer (D : PathTable) (A T : String) (e4 : Cell) (a t k : String) :
    dget3 (dset D A (dset ((lookupD D A).getD []) T e4)) a t k =
      if a = A then (if t = T then lookupD e4 k else dget3 D a t k)
      else dget3 D a t k := by
  by_cases ha : a = A
  · subst ha
    rw [if_pos rfl]
    by_cases ht : t = T
    · subst ht
      rw [if_pos rfl]
      simp [dget3, lookupD_dset_self]
    · rw [if_neg ht]
      cases hl : lookupD D a with
      | none => simp [dget3, lookupD_dset_self, lookupD_dset_ne _ _ _ _ ht, hl, lookupD, ht]
      | some innerA => simp [dget3, lookupD_dset_self, lookupD_dset_ne _ _ _ _ ht, hl, lookupD, ht]
  · rw [if_neg ha]
    simp [dget3, lookupD_dset_ne _ _ _ _ ha]

/-- Membership in the cell the loop body reads is chained membership. -/
theorem dmem_cellAt (d : PathTable) (a t k : String) :
    dmem (cellAt d a t) k = dmem3 d a t k := by
  unfold cellAt dmem3 dget3
  rw [lookupD_tableAug_self]
  simp only [Option.getD_some]
  cases hl : lookupD d a with
  | none => simp [hl, lookupD, dmem]
  | some innerA =>
    simp only [hl, Option.getD_some]
    cases hlt : lookupD innerA t with
    | none => simp [hlt, lookupD, dmem]
    | some cellA => simp [hlt, dmem]

/-- A successful conversions loop only grows the cell. -/
theorem addConversions_mono (rdir a t ty : String) (cs : List String) :
    ∀ e e2, addConversions rdir a t ty e cs = .ok e2 →
      ∀ k, dmem e k = true → dmem e2 k = true := by
  induction cs with
  | nil => intro e e2 h k hk; cases h; exact hk
  | cons c rest ih =>
    intro e e2 h k hk
    cases hl : lookupD conversionExtensions c with
    | none => rw [addConversions, hl] at h; cases h
    | some ext =>
      rw [addConversions, hl] at h
      exact ih _ _ h k (dmem_dset_mono _ _ _ _ hk)

/-- A successful indexes loop only grows the cell. -/
theorem addIndexes_mono (rdir a t : String) (cs : List String) :
    ∀ e e2, addIndexes rdir a t e cs = .ok e2 →
      ∀ k, dmem e k = true → dmem e2 k = true := by
  induction cs with
  | nil => intro e e2 h k hk; cases h; exact hk
  | cons c rest ih =>
    intro e e2 h k hk
    cases hl : lookupD indexExtensions c with
    | none => rw [addIndexes, hl] at h; cases h
    | some ext =>
      rw [addIndexes, hl] at h
      exact ih _ _ h k (dmem_dset_mono _ _ _ _ hk)

/-- A successful conversions loop leaves every kind outside the conversion
table untouched. -/
theorem addConversions_preserve (rdir a t ty : String) (cs : List String) :
    ∀ e e2, addConversions rdir a t ty e cs = .ok e2 →
      ∀ k, lookupD conversionExtensions k = none → lookupD e2 k = lookupD e k := by
  induction cs with
  | nil => intro e e2 h k hk; cases h; rfl
  | cons c rest ih =>
    intro e e2 h k hk
    cases hl : lookupD conversionExtensions c with
    | none => rw [addConversions, hl] at h; cases h
    | some ext =>
      rw [addConversions, hl] at h
      have hkc : k ≠ c := fun hh => by rw [hh, hl] at hk; cases hk
      rw [ih _ _ h k hk, lookupD_dset_ne _ _ _ _ hkc]

/-- A successful indexes loop leaves every kind outside the index table
untouched. -/
theorem addIndexes_preserve (rdir a t : String) (cs : List String) :
    ∀ e e2, addIndexes rdir a t e cs = .ok e2 →
      ∀ k, lookupD indexExtensions k = none → lookupD e2 k = lookupD e k := by
  induction cs with
  | nil => intro e e2 h k hk; cases h; rfl
  | cons c rest ih =>
    intro e e2 h k hk
    cases hl : lookupD indexExtensions c with
    | none => rw [addIndexes, hl] at h; cases h
    | some ext =>
      rw [addIndexes, hl] at h
      have hkc : k ≠ c := fun hh => by rw [hh, hl] at hk; cases hk
      rw [ih _ _ h k hk, lookupD_dset_ne _ _ _ _ hkc]

/-- What a successful loop body produces: the old table with one cell
written back, a cell that extends the old one, contains the block's type,
and agrees with the old cell on every kind outside the extension tables
other than the block's type and `chromsizes`. -/
theorem processBlock_ok_shape (rdir : String) (d : PathTable) (b : RefBlock)
    (d2 : PathTable) (h : processBlock rdir d b = .ok d2) :
    ∃ e4,
      d2 = dset (tableAug d b.assembly) b.assembly
        (dset ((lookupD (tableAug d b.assembly) b.assembly).getD []) (tagOf b) e4) ∧
      (∀ k, dmem (cellAt d b.assembly (tagOf b)) k = true → dmem e4 k = true) ∧
      dmem e4 b.type_ = true ∧
      (∀ k, lookupD conversionExtensions k = none → lookupD indexExtensions k = none →
        k ≠ b.type_ → k ≠ "chromsizes" →
        lookupD e4 k = lookupD (cellAt d b.assembly (tagOf b)) k) ∧
      (b.type_ ≠ "fasta" → b.type_ ≠ "chromsizes" →
        lookupD e4 "chromsizes" = lookupD (cellAt d b.assembly (tagOf b)) "chromsizes") ∧
      (b.type_ = "fasta" → lookupD e4 "chromsizes" =
        some (rdir ++ "/" ++ b.assembly ++ "/" ++ "fasta" ++ "/" ++ b.assembly ++ "_" ++
          tagOf b ++ ".chromsizes")) := by
  simp only [processBlock] at h
  by_cases hdup : dmem (cellAt d b.assembly (tagOf b)) b.type_ = true
  · rw [if_pos hdup] at h; cases h
  · simp only [Bool.not_eq_true] at hdup
    rw [if_neg (by simp [hdup])] at h
    by_cases hg : b.type_ = "gtf"
    · simp only [hg] at h
      simp only [String.reduceEq, reduceIte] at h
      cases hc : addConversions rdir b.assembly (tagOf b) "gtf"
          (dset (cellAt d b.assembly (tagOf b)) "gtf"
            (rdir ++ "/" ++ b.assembly ++ "/" ++ "gtf" ++ "/" ++ b.assembly ++ "_" ++
              tagOf b ++ "." ++ "gtf"))
          (b.conversions.getD []) with
      | error err => simp only [hc] at h; cases h
      | ok e2 =>
        simp only [hc] at h
        cases h
        refine ⟨e2, rfl, ?_, ?_, ?_, ?_, ?_⟩
        · intro k hk
          exact addConversions_mono _ _ _ _ _ _ _ hc k (dmem_dset_mono _ _ _ _ hk)
        · rw [hg]
          exact addConversions_mono _ _ _ _ _ _ _ hc "gtf" (dmem_dset_self _ _ _)
        · intro k hkc hki hkt hkcs
          rw [addConversions_preserve _ _ _ _ _ _ _ hc k hkc]
          apply lookupD_dset_ne
          rw [hg] at hkt; exact hkt
        · intro hbf hbc
          rw [addConversions_preserve _ _ _ _ _ _ _ hc "chromsizes" (by decide)]
          exact lookupD_dset_ne _ _ _ _ (by decide)
        · intro hbf
          rw [hg] at hbf
          exact absurd hbf (by decide)
    · by_cases hf : b.type_ = "fasta"
      · simp only [hf] at h
        simp only [String.reduceEq, reduceIte] at h
        cases hi : addIndexes rdir b.assembly (tagOf b)
            (dset (cellAt d b.assembly (tagOf b)) "fasta"
              (rdir ++ "/" ++ b.assembly ++ "/" ++ "fasta" ++ "/" ++ b.assembly ++ "_" ++
                tagOf b ++ "." ++ "fasta"))
            (b.indexes.getD []) with
        | error err => simp only [hi, Except.map] at h; cases h
        | ok e3 =>
          simp only [hi, Except.map] at h
          cases h
          refine ⟨_, rfl, ?_, ?_, ?_, ?_, ?_⟩
          · intro k hk
            exact dmem_dset_mono _ _ _ _
              (addIndexes_mono _ _ _ _ _ _ hi k (dmem_dset_mono _ _ _ _ hk))
          · rw [hf]
            exact dmem_dset_mono _ _ _ _
              (addIndexes_mono _ _ _ _ _ _ hi "fasta" (dmem_dset_self _ _ _))
          · intro k hkc hki hkt hkcs
            rw [lookupD_dset_ne _ _ _ _ hkcs, addIndexes_preserve _ _ _ _ _ _ hi k hki]
            apply lookupD_dset_ne
            rw [hf] at hkt; exact hkt
          · intro hbf hbc
            exact absurd hf hbf
          · intro hbf
            exact lookupD_dset_self _ _ _
      · simp only [if_neg hg, if_neg hf] at h
        cases h
        refine ⟨_, rfl, ?_, ?_, ?_, ?_, ?_⟩
        · intro k hk; exact dmem_dset_mono _ _ _ _ hk
        · exact dmem_dset_self _ _ _
        · intro k hkc hki hkt hkcs
          exact lookupD_dset_ne _ _ _ _ hkt
        · intro hbf hbc
          exact lookupD_dset_ne _ _ _ _ (fun hh => hbc hh.symm)
        · intro hbf
          exact absurd hbf hf

/-- A successful loop body records the block's `(assembly, tag, type)`
triple in the table. -/
theorem processBlock_ok_mem (rdir : String) (d : PathTable) (b : RefBlock)
    (d2 : PathTable) (h : processBlock rdir d b = .ok d2) :
    dmem3 d2 b.assembly (tagOf b) b.type_ = true := by
  obtain ⟨e4, hd2, _, hty4, _, _, _⟩ := processBlock_ok_shape rdir d b d2 h
  subst hd2
  unfold dmem3
  rw [dget3_dset_outer]
  simp only [if_pos rfl]
  simpa [dmem] using hty4

/-- A successful loop body never removes a recorded triple. -/
theorem processBlock_ok_mono (rdir : String) (d : PathTable) (b : RefBlock)
    (d2 : PathTable) (h : processBlock rdir d b = .ok d2) (a t k : String)
    (hm : dmem3 d a t k = true) : dmem3 d2 a t k = true := by
  obtain ⟨e4, hd2, hmono, _, _, _, _⟩ := processBlock_ok_shape rdir d b d2 h
  subst hd2
  unfold dmem3 at hm ⊢
  rw [dget3_dset_outer]
  by_cases ha : a = b.assembly
  · by_cases ht : t = tagOf b
    · rw [if_pos ha, if_pos ht]
      have hcell : dmem (cellAt d b.assembly (tagOf b)) k = true := by
        rw [dmem_cellAt]
        unfold dmem3
        rw [← ha, ← ht]
        exact hm
      simpa [dmem] using hmono k hcell
    · rw [if_pos ha, if_neg ht, dget3_tableAug]
      exact hm
  · rw [if_neg ha, dget3_tableAug]
    exact hm

/-- A block whose triple is already recorded makes the loop body raise the
duplicate-type error. -/
theorem processBlock_dup_error (rdir : String) (d : PathTable) (b : RefBlock)
    (hd : dmem3 d b.assembly (tagOf b) b.type_ = true) :
    processBlock rdir d b = .error (.dupType b.assembly (tagOf b) b.type_) := by
  have hmem : dmem (cellAt d b.assembly (tagOf b)) b.type_ = true := by
    rw [dmem_cellAt]; exact hd
  simp only [processBlock]
  rw [if_pos hmem]

/-- When a block requests only known kinds, the only error the loop body
can raise is the duplicate-type error for that block's key. -/
theorem processBlock_err_dupType (rdir : String) (d : PathTable) (b : RefBlock)
    (hknown : knownKinds b) (err : Err) (h : processBlock rdir d b = .error err) :
    err = .dupType b.assembly (tagOf b) b.type_ := by
  simp only [processBlock] at h
  by_cases hdup : dmem (cellAt d b.assembly (tagOf b)) b.type_ = true
  · rw [if_pos hdup] at h
    cases h
    rfl
  · simp only [Bool.not_eq_true] at hdup
    rw [if_neg (by simp [hdup])] at h
    by_cases hg : b.type_ = "gtf"
    · obtain ⟨e2, he2⟩ := addConversions_known_ok rdir b.assembly (tagOf b) "gtf"
        (b.conversions.getD []) (hknown.1 hg)
        (dset (cellAt d b.assembly (tagOf b)) "gtf"
          (rdir ++ "/" ++ b.assembly ++ "/" ++ "gtf" ++ "/" ++ b.assembly ++ "_" ++
            tagOf b ++ "." ++ "gtf"))
      simp only [hg, String.reduceEq, reduceIte, he2] at h
      cases h
    · by_cases hf : b.type_ = "fasta"
      · obtain ⟨e3, he3⟩ := addIndexes_known_ok rdir b.assembly (tagOf b)
          (b.indexes.getD []) (hknown.2 hf)
          (dset (cellAt d b.assembly (tagOf b)) "fasta"
            (rdir ++ "/" ++ b.assembly ++ "/" ++ "fasta" ++ "/" ++ b.assembly ++ "_" ++
              tagOf b ++ "." ++ "fasta"))
        simp only [hf, String.reduceEq, reduceIte, he3, Except.map] at h
        cases h
      · simp only [if_neg hg, if_neg hf] at h
        cases h

/-- Once a block's triple is recorded, the rest of the loop raises the
duplicate-type error, provided all requested kinds are known. -/
theorem resolveRefs_mem_dup (bs : List RefBlock) (rdir : String) (b : RefBlock) :
    ∀ d, b ∈ bs → (∀ x ∈ bs, knownKinds x) →
    dmem3 d b.assembly (tagOf b) b.type_ = true →
    ∃ a t ty, resolveRefs rdir d bs = .error (.dupType a t ty) := by
  induction bs with
  | nil => intro d hb _ _; cases hb
  | cons x rest ih =>
    intro d hb hknown hd
    cases hp : processBlock rdir d x with
    | error err =>
      have hsh := processBlock_err_dupType rdir d x (hknown x (List.mem_cons_self x rest)) err hp
      exact ⟨x.assembly, tagOf x, x.type_, by simp only [resolveRefs, hp]; rw [hsh]⟩
    | ok d2 =>
      rcases List.mem_cons.mp hb with h1 | h2
      · subst h1
        rw [processBlock_dup_error rdir d b hd] at hp
        cases hp
      · obtain ⟨a, t, ty, hres⟩ := ih d2 h2
          (fun y hy => hknown y (List.mem_cons_of_mem x hy))
          (processBlock_ok_mono rdir d x d2 hp b.assembly (tagOf b) b.type_ hd)
        exact ⟨a, t, ty, by simp only [resolveRefs, hp]; exact hres⟩

/-- A references list containing two blocks with one `(assembly, tag,
type)` triple makes the loop raise the duplicate-type error, wherever the
two blocks sit, provided all requested kinds are known. -/
theorem resolveRefs_dup_split (pre : List RefBlock) (rdir : String) (b1 : RefBlock)
    (mid : List RefBlock) (b2 : RefBlock) (post : List RefBlock)
    (hkey : blockKey b1 = blockKey b2) :
    ∀ d, (∀ x ∈ pre ++ b1 :: mid ++ b2 :: post, knownKinds x) →
    ∃ a t ty, resolveRefs rdir d (pre ++ b1 :: mid ++ b2 :: post) =
      .error (.dupType a t ty) := by
  induction pre with
  | nil =>
    intro d hknown
    simp only [List.nil_append]
    cases hp : processBlock rdir d b1 with
    | error err =>
      have hsh := processBlock_err_dupType rdir d b1 (hknown b1 (by simp)) err hp
      exact ⟨b1.assembly, tagOf b1, b1.type_, by simp only [resolveRefs, hp]; rw [hsh]⟩
    | ok d2 =>
      have hA : b1.assembly = b2.assembly := congrArg (fun p => p.1) hkey
      have hT : tagOf b1 = tagOf b2 := congrArg (fun p => p.2.1) hkey
      have hTY : b1.type_ = b2.type_ := congrArg (fun p => p.2.2) hkey
      have hmem2 : dmem3 d2 b2.assembly (tagOf b2) b2.type_ = true := by
        rw [← hA, ← hT, ← hTY]
        exact processBlock_ok_mem rdir d b1 d2 hp
      obtain ⟨a, t, ty, hres⟩ := resolveRefs_mem_dup (mid ++ b2 :: post) rdir b2 d2
        (List.mem_append_right mid (List.mem_cons_self b2 post))
        (fun y hy => hknown y (List.mem_cons_of_mem b1 hy)) hmem2
      exact ⟨a, t, ty, by simp only [resolveRefs, hp]; exact hres⟩
  | cons p pre2 ih =>
    intro d hknown
    simp only [List.cons_append]
    cases hp : processBlock rdir d p with
    | error err =>
      have hsh := processBlock_err_dupType rdir d p (hknown p (by simp)) err hp
      exact ⟨p.assembly, tagOf p, p.type_, by simp only [resolveRefs, hp]; rw [hsh]⟩
    | ok d2 =>
      obtain ⟨a, t, ty, hres⟩ := ih d2 (fun y hy => hknown y (List.mem_cons_of_mem p hy))
      exact ⟨a, t, ty, by simp only [resolveRefs, hp]; exact hres⟩

/-- Claim C3 (confirmed): a configuration whose references list contains
two blocks with the same `(assembly, tag, type)` triple — wherever the two
blocks appear — makes `config_to_dict` raise the duplicate-type
configuration error, which carries an offending `(assembly, tag, type)`
key; a later block never silently overwrites an earlier one.  The
hypotheses restrict attention to configurations that do not fail earlier
for an unrelated reason: the references directory is available and all
requested kinds are known. -/
theorem claim_C3 (env : Option String) (cfg : Config) (pre mid post : List RefBlock)
    (b1 b2 : RefBlock)
    (hsplit : cfg.references = pre ++ b1 :: mid ++ b2 :: post)
    (hkey : blockKey b1 = blockKey b2)
    (hknown : ∀ b ∈ cfg.references, knownKinds b)
    (hdir : (effectiveRefDir env cfg).isSome = true) :
    ∃ a t ty, configToDict env cfg = .error (.dupType a t ty) := by
  cases he : effectiveRefDir env cfg with
  | none => rw [he] at hdir; cases hdir
  | some rdir =>
    have hC : configToDict env cfg = resolveRefs rdir [] cfg.references := by
      simp [configToDict, he]
    rw [hC, hsplit]
    rw [hsplit] at hknown
    exact resolveRefs_dup_split pre rdir b1 mid b2 post hkey [] hknown

/-- Witness for claim C3: a configuration with two fasta blocks for
`(dm6, default)` is rejected with a duplicate-type error. -/
theorem claim_C3_witness :
    ∃ a t ty, configToDict none cfg3 = .error (.dupType a t ty) :=
  claim_C3 none cfg3 [] [] [] blockFasta blockFastaDup rfl rfl (by decide) rfl

/-- A lookup in the cell the loop body reads is the chained lookup. -/
theorem lookupD_cellAt (d : PathTable) (a t k : String) :
    lookupD (cellAt d a t) k = dget3 d a t k := by
  unfold cellAt dget3
  rw [lookupD_tableAug_self]
  simp only [Option.getD_some]
  cases hl : lookupD d a with
  | none => simp [hl, lookupD]
  | some innerA =>
    simp only [hl, Option.getD_some]
    cases hlt : lookupD innerA t with
    | none => simp [hlt, lookupD]
    | some cellA => simp [hlt]

/-- A successful loop body preserves a recorded chromsizes path of a cell
that already holds a fasta entry. -/
theorem processBlock_chromsizes_preserve (rdir : String) (d : PathTable) (b : RefBlock)
    (d2 : PathTable) (h : processBlock rdir d b = .ok d2) (a t p : String)
    (hcs : dget3 d a t "chromsizes" = some p)
    (hfa : dmem3 d a t "fasta" = true) :
    dget3 d2 a t "chromsizes" = some p ∧ dmem3 d2 a t "fasta" = true := by
  refine ⟨?_, processBlock_ok_mono rdir d b d2 h a t "fasta" hfa⟩
  obtain ⟨e4, hd2, hmono, hty4, hpres, hcs5, hcs6⟩ := processBlock_ok_shape rdir d b d2 h
  subst hd2
  rw [dget3_dset_outer]
  by_cases ha : a = b.assembly
  · by_cases ht : t = tagOf b
    · rw [if_pos ha, if_pos ht]
      by_cases hbf : b.type_ = "fasta"
      · exfalso
        have hdd : dmem3 d b.assembly (tagOf b) b.type_ = true := by
          rw [hbf, ← ha, ← ht]
          exact hfa
        rw [processBlock_dup_error rdir d b hdd] at h
        cases h
      · by_cases hbc : b.type_ = "chromsizes"
        · exfalso
          have hdd : dmem3 d b.assembly (tagOf b) b.type_ = true := by
            rw [hbc, ← ha, ← ht]
            unfold dmem3
            rw [hcs]
            rfl
          rw [processBlock_dup_error rdir d b hdd] at h
          cases h
        · rw [hcs5 hbf hbc, lookupD_cellAt, ← ha, ← ht]
          exact hcs
    · rw [if_pos ha, if_neg ht, dget3_tableAug]
      exact hcs
  · rw [if_neg ha, dget3_tableAug]
    exact hcs

/-- A successfully processed fasta block records its chromsizes path and
its fasta entry. -/
theorem processBlock_fasta_est (rdir : String) (d : PathTable) (b : RefBlock)
    (d2 : PathTable) (h : processBlock rdir d b = .ok d2) (hf : b.type_ = "fasta") :
    dget3 d2 b.assembly (tagOf b) "chromsizes" =
      some (rdir ++ "/" ++ b.assembly ++ "/" ++ "fasta" ++ "/" ++ b.assembly ++ "_" ++
        tagOf b ++ ".chromsizes") ∧
    dmem3 d2 b.assembly (tagOf b) "fasta" = true := by
  constructor
  · obtain ⟨e4, hd2, _, _, _, _, hcs6⟩ := processBlock_ok_shape rdir d b d2 h
    subst hd2
    rw [dget3_dset_outer, if_pos rfl, if_pos rfl]
    exact hcs6 hf
  · rw [← hf]
    exact processBlock_ok_mem rdir d b d2 h

/-- The rest of the loop preserves a recorded chromsizes path guarded by a
fasta entry. -/
theorem resolveRefs_chromsizes_preserve (bs : List RefBlock) (rdir : String)
    (a t p : String) :
    ∀ d tbl, resolveRefs rdir d bs = .ok tbl →
    dget3 d a t "chromsizes" = some p → dmem3 d a t "fasta" = true →
    dget3 tbl a t "chromsizes" = some p := by
  induction bs with
  | nil => intro d tbl h h1 h2; cases h; exact h1
  | cons x rest ih =>
    intro d tbl h h1 h2
    cases hp : processBlock rdir d x with
    | error e => simp only [resolveRefs, hp] at h; cases h
    | ok d2 =>
      simp only [resolveRefs, hp] at h
      obtain ⟨h1n, h2n⟩ := processBlock_chromsizes_preserve rdir d x d2 hp a t p h1 h2
      exact ih d2 tbl h h1n h2n

/-- Splitting the loop over a concatenation of references. -/
theorem resolveRefs_append (rdir : String) (xs ys : List RefBlock) :
    ∀ d tbl, resolveRefs rdir d (xs ++ ys) = .ok tbl →
    ∃ dmid, resolveRefs rdir d xs = .ok dmid ∧ resolveRefs rdir dmid ys = .ok tbl := by
  induction xs with
  | nil => intro d tbl h; exact ⟨d, rfl, h⟩
  | cons x rest ih =>
    intro d tbl h
    simp only [List.cons_append] at h
    cases hp : processBlock rdir d x with
    | error e => simp only [resolveRefs, hp] at h; cases h
    | ok d2 =>
      simp only [resolveRefs, hp] at h
      obtain ⟨dmid, h1, h2⟩ := ih d2 tbl h
      exact ⟨dmid, by simp only [resolveRefs, hp]; exact h1, h2⟩

/-- Claim C7 (confirmed): in a configuration accepted by `config_to_dict`,
every fasta block leaves a `chromsizes` entry in its `(assembly, tag)`
cell, at the path `{references_dir}/{assembly}/fasta/{assembly}_{tag}.chromsizes`,
whether or not the block requests indexes. -/
theorem claim_C7 (env : Option String) (cfg : Config) (tbl : PathTable) (b : RefBlock)
    (rdir : String) (hok : configToDict env cfg = .ok tbl)
    (hb : b ∈ cfg.references) (hty : b.type_ = "fasta")
    (hdir : effectiveRefDir env cfg = some rdir) :
    dget3 tbl b.assembly (tagOf b) "chromsizes" =
      some (rdir ++ "/" ++ b.assembly ++ "/" ++ "fasta" ++ "/" ++ b.assembly ++ "_" ++
        tagOf b ++ ".chromsizes") := by
  have hC : configToDict env cfg = resolveRefs rdir [] cfg.references := by
    simp [configToDict, hdir]
  rw [hC] at hok
  obtain ⟨l1, l2, hsplit⟩ := List.append_of_mem hb
  rw [hsplit] at hok
  obtain ⟨dmid, h1, h2⟩ := resolveRefs_append rdir l1 (b :: l2) [] tbl hok
  cases hp : processBlock rdir dmid b with
  | error e => simp only [resolveRefs, hp] at h2; cases h2
  | ok d2 =>
    simp only [resolveRefs, hp] at h2
    obtain ⟨hest1, hest2⟩ := processBlock_fasta_est rdir dmid b d2 hp hty
    exact resolveRefs_chromsizes_preserve l2 rdir b.assembly (tagOf b) _ d2 tbl h2 hest1 hest2

/-- Witness for claim C7 at the example configuration. -/
theorem claim_C7_witness :
    dget3 (resultTable (configToDict none c6cfg)) c6block.assembly (tagOf c6block)
      "chromsizes" =
      some ("/data" ++ "/" ++ c6block.assembly ++ "/" ++ "fasta" ++ "/" ++
        c6block.assembly ++ "_" ++ tagOf c6block ++ ".chromsizes") :=
  claim_C7 none c6cfg (resultTable (configToDict none c6cfg)) c6block "/data" rfl
    (by decide) rfl rfl

/-- A removed file is absent. -/
theorem hasFile_removeFile_self (fs : FS) (f : String) :
    hasFile (removeFile fs f) f = false := by
  induction fs with
  | nil => rfl
  | cons x rest ih =>
    by_cases h : x = f
    · simp [removeFile, h, ih]
    · simp [removeFile, hasFile, h, ih]

/-- Removing one file does not create another. -/
theorem hasFile_removeFile_of_not (fs : FS) (f g : String) :
    hasFile fs g = false → hasFile (removeFile fs f) g = false := by
  induction fs with
  | nil => intro _; rfl
  | cons x rest ih =>
    intro h
    by_cases hxg : x = g
    · simp [hasFile, hxg] at h
    · have h2 : hasFile rest g = false := by simpa [hasFile, hxg] using h
      by_cases hxf : x = f
      · simpa [removeFile, hxf] using ih h2
      · simpa [removeFile, hxf, hasFile, hxg] using ih h2

/-- One iteration of the cleanup loop removes its own file. -/
theorem hasFile_cleanupStep_self (fs : FS) (t : String) :
    hasFile (if hasFile fs t then removeFile fs t else fs) t = false := by
  by_cases hc : hasFile fs t = true
  · simp [hc, hasFile_removeFile_self]
  · simp only [Bool.not_eq_true] at hc
    simp [hc]

/-- The cleanup loop never creates a file. -/
theorem cleanupTmp_of_not (l : List String) (fs : FS) (t : String)
    (h : hasFile fs t = false) : hasFile (cleanupTmp fs l) t = false := by
  induction l generalizing fs with
  | nil => exact h
  | cons u rest ih =>
    simp only [cleanupTmp, List.foldl_cons]
    apply ih
    by_cases hc : hasFile fs u = true
    · simp only [hc, if_true]
      exact hasFile_removeFile_of_not fs u t h
    · simp only [Bool.not_eq_true] at hc
      simpa [hc] using h

/-- The cleanup loop removes every file it is given. -/
theorem cleanupTmp_of_mem (l : List String) (fs : FS) (t : String)
    (h : t ∈ l) : hasFile (cleanupTmp fs l) t = false := by
  induction l generalizing fs with
  | nil => cases h
  | cons u rest ih =>
    simp only [cleanupTmp, List.foldl_cons]
    rcases List.mem_cons.mp h with h1 | h2
    · subst h1
      exact cleanupTmp_of_not rest _ t (hasFile_cleanupStep_self fs t)
    · exact ih _ h2

/-- When the pipeline tail returns without error, none of its temporary
files survives on the final filesystem. -/
theorem runPipeline_ok_clean (func : PostFunc) (args : List String)
    (urls : List String) (outfile : String) (fs : FS)
    (hok : (runPipeline func args urls outfile fs).2 = none) :
    ∀ t ∈ tmpNames outfile urls.length,
      hasFile (runPipeline func args urls outfile fs).1 t = false := by
  intro t ht
  simp only [runPipeline] at hok ⊢
  cases hrun : func (tmpNames outfile urls.length) outfile args
      ((urls.zip (tmpNames outfile urls.length)).foldl
        (fun s p => addFile (addFile s (outfile ++ ".log")) p.2) fs) with
  | error msg => rw [hrun] at hok; simp at hok
  | ok fs2 =>
    simp only [hrun]
    exact cleanupTmp_of_mem _ _ _ ht

/-- Claim C1 (corrected): cleanup of the call's temporary files is
guaranteed only when the invoked postprocessing function returns normally;
on that path every `{outfile}.{i}.tmp` of the call is absent afterwards.
When the function raises, the error propagates before the cleanup loop and
the temporaries may remain (see the counterexample). -/
theorem claim_C1 (resolver : Resolver) (cfg : Config)
    (outfile assembly tag : String) (fs : FS)
    (hok : (downloadAndPostprocess resolver cfg outfile assembly tag fs).2 = none) :
    ∀ t ∈ callTmpfiles cfg outfile assembly tag,
      hasFile (downloadAndPostprocess resolver cfg outfile assembly tag fs).1 t = false := by
  intro t ht
  unfold downloadAndPostprocess at hok ⊢
  unfold callTmpfiles at ht
  cases hb : buildLookup cfg.references with
  | error e => simp only [hb] at hok; simp at hok
  | ok d =>
    simp only [hb] at hok ht ⊢
    cases hrd : cfg.referencesDir with
    | none => simp only [hrd] at hok; simp at hok
    | some r =>
      simp only [hrd] at hok ⊢
      cases hblk : lookupD d (assembly, tag) with
      | none => simp only [hblk] at hok; simp at hok
      | some block =>
        simp only [hblk] at hok ht ⊢
        cases hu : block.url with
        | none =>
          cases hnp : normPostprocess block.postprocess with
          | useDefault =>
            simp only [hnp, hu] at hok; simp at hok
          | named name args =>
            simp only [hnp] at hok
            cases hres : resolver name with
            | none => simp only [hres] at hok; simp at hok
            | some f => simp only [hres, hu] at hok; simp at hok
        | some u =>
          simp only [hu] at hok ht ⊢
          cases hnp : normPostprocess block.postprocess with
          | useDefault =>
            simp only [hnp] at hok ⊢
            exact runPipeline_ok_clean _ _ (urlList u) outfile fs hok t ht
          | named name args =>
            simp only [hnp] at hok ⊢
            cases hres : resolver name with
            | none => simp only [hres] at hok; simp at hok
            | some f =>
              simp only [hres] at hok ⊢
              exact runPipeline_ok_clean _ _ (urlList u) outfile fs hok t ht

/-- Witness for claim C1: a call with the default postprocess succeeds and
leaves no temporary file behind. -/
theorem claim_C1_witness :
    hasFile (downloadAndPostprocess raisingResolver cfgW "out" "dm6" "default" []).1
      "out.0.tmp" = false :=
  claim_C1 raisingResolver cfgW "out" "dm6" "default" [] (by decide)
    "out.0.tmp" (by decide)

/-- Counterexample to claim C1 as stated: with a postprocessing function
that raises, the call propagates the error while its temporary file
`out.0.tmp` is still present on the filesystem. -/
theorem claim_C1_counterexample :
    (downloadAndPostprocess raisingResolver cfg1 "out" "dm6" "default" []).2 =
      some (.postError "postprocess failed") ∧
    hasFile (downloadAndPostprocess raisingResolver cfg1 "out" "dm6" "default" []).1
      "out.0.tmp" = true := by
  refine ⟨?_, ?_⟩ <;> rfl

end LcdbWf
